import Mathlib

/-!
# Hephaestus Forge — verification of the audio core

Shallow embedding of the repository's audio core (`pkg/audio`): the biquad
filter, the oscillator bank, the effect chain, the parameter manager and the
engine start/stop state machine.  `float64` arithmetic is idealised as exact
rational arithmetic (`ℚ`); the transcendental library calls (`math.Sin`,
`math.Cos`, `math.Tanh`, `math.Pow`) are abstracted as fields of a `RealFns`
record, so every theorem quantifies over the possible values those calls can
return.  Phase accumulators are kept in units of π: a stored value `q : ℚ`
stands for the radian angle `q·π`, so the canonical range `[0, 2π)` becomes
`[0, 2)`.  Go's `int(x)` conversion (truncation toward zero) is `ratTrunc`.
-/

namespace HephaestusForge

/-- `SampleRate` constant from the engine (`const SampleRate = 44100`). -/
def SampleRate : ℕ := 44100

/-- `FrameSize` constant from the engine. -/
def FrameSize : ℕ := 512

/-- Go's `int(x)` conversion on a `float64`: truncation toward zero. -/
def ratTrunc (q : ℚ) : ℤ := if 0 ≤ q then ⌊q⌋ else ⌈q⌉

/-- Abstraction of the transcendental `math` library calls.  `sinPi x` stands
for `math.Sin (π·x)` and `cosPi x` for `math.Cos (π·x)` (angles are stored in
units of π), `tanh` for `math.Tanh`, `pow2 b` for `math.Pow 2 b`. -/
structure RealFns where
  sinPi : ℚ → ℚ
  cosPi : ℚ → ℚ
  tanh : ℚ → ℚ
  pow2 : ℚ → ℚ

/-! ## Parameter manager (`parameters.go`) -/

/-- `ParameterSmoother` struct: exponential smoothing state for one key. -/
structure ParameterSmoother where
  current : ℚ
  target : ℚ
  rate : ℚ
  active : Bool
  deriving DecidableEq

/-- `ParameterManager` struct.  The Go maps are modelled as functions from
keys to optional values (`none` = key absent). -/
structure ParameterManager where
  params : String → Option ℚ
  atomicParams : String → Option ℚ
  smoothing : String → Option ParameterSmoother

/-- `NewParameterManager`: all three maps empty. -/
def NewParameterManager : ParameterManager :=
  { params := fun _ => none, atomicParams := fun _ => none, smoothing := fun _ => none }

/-- `absFloat64` helper from `parameters.go`. -/
def absFloat64 (x : ℚ) : ℚ := if x < 0 then -x else x

namespace ParameterManager

/-- `Set`: writes the primary record, refreshes a registered atomic slot, and
(if a smoother is attached) retargets it and marks it active. -/
def Set (pm : ParameterManager) (key : String) (value : ℚ) : ParameterManager :=
  { params := fun k => if k = key then some value else pm.params k
    atomicParams := fun k =>
      if k = key then (pm.atomicParams key).map (fun _ => value) else pm.atomicParams k
    smoothing := fun k =>
      if k = key then
        (pm.smoothing key).map (fun s => { s with target := value, active := true })
      else pm.smoothing k }

/-- `Get`: read of the primary record. -/
def Get (pm : ParameterManager) (key : String) : Option ℚ := pm.params key

/-- `GetWithDefault`. -/
def GetWithDefault (pm : ParameterManager) (key : String) (defaultValue : ℚ) : ℚ :=
  (pm.Get key).getD defaultValue

/-- `GetSmoothed`: advances the smoother one step when one is attached and
active; snaps to the target and deactivates once within `1e-4`.  The Go method
mutates the smoother through a pointer; here the updated manager is returned
alongside the value. -/
def GetSmoothed (pm : ParameterManager) (key : String) (defaultValue : ℚ) :
    ParameterManager × ℚ :=
  match pm.smoothing key with
  | some s =>
      if s.active then
        let c := s.current + (s.target - s.current) * s.rate
        let s' : ParameterSmoother :=
          if absFloat64 (s.target - c) < 1/10000 then
            { s with current := s.target, active := false }
          else
            { s with current := c }
        ({ pm with smoothing := fun k => if k = key then some s' else pm.smoothing k },
          s'.current)
      else (pm, pm.GetWithDefault key defaultValue)
  | none => (pm, pm.GetWithDefault key defaultValue)

/-- `RegisterAtomic`: creates the lock-free slot and mirrors the value into
the primary record. -/
def RegisterAtomic (pm : ParameterManager) (key : String) (initialValue : ℚ) :
    ParameterManager :=
  { pm with
    params := fun k => if k = key then some initialValue else pm.params k
    atomicParams := fun k => if k = key then some initialValue else pm.atomicParams k }

/-- `GetAtomic`. -/
def GetAtomic (pm : ParameterManager) (key : String) : Option ℚ := pm.atomicParams key

/-- `EnableSmoothing`: attaches a smoother seeded at the current value,
inactive. -/
def EnableSmoothing (pm : ParameterManager) (key : String) (rate : ℚ) : ParameterManager :=
  { pm with
    smoothing := fun k =>
      if k = key then
        some { current := pm.GetWithDefault key 0, target := pm.GetWithDefault key 0,
               rate := rate, active := false }
      else pm.smoothing k }

/-- One iteration of the `BatchSet` loop body: update the primary record and,
when a lock-free slot is registered, the slot; smoothers are not touched. -/
def batchSetOne (pm : ParameterManager) (key : String) (value : ℚ) : ParameterManager :=
  { pm with
    params := fun k => if k = key then some value else pm.params k
    atomicParams := fun k =>
      if k = key then (pm.atomicParams key).map (fun _ => value) else pm.atomicParams k }

/-- `BatchSet`: the update map is modelled as the list of key/value pairs the
Go `range` loop visits, applied in order. -/
def BatchSet (pm : ParameterManager) : List (String × ℚ) → ParameterManager
  | [] => pm
  | (key, value) :: rest => (pm.batchSetOne key value).BatchSet rest

end ParameterManager

/-! ## Biquad filter (`filter.go`) -/

/-- `FilterType` enum. -/
inductive FilterType
  | lowPass
  | highPass
  | bandPass
  | notch
  deriving DecidableEq

/-- `Filter` struct: variant tag, control parameters, biquad coefficients and
the two-sample input/output history. -/
structure Filter where
  type : FilterType
  frequency : ℚ
  resonance : ℚ
  a0 : ℚ
  a1 : ℚ
  a2 : ℚ
  b0 : ℚ
  b1 : ℚ
  b2 : ℚ
  x1 : ℚ
  x2 : ℚ
  y1 : ℚ
  y2 : ℚ
  deriving DecidableEq

namespace Filter

/-- The resonance clamp from `updateCoefficients`: `q` forced into
`[0.1, 10]`. -/
def clampResonance (q : ℚ) : ℚ :=
  if q < 1/10 then 1/10 else if q > 10 then 10 else q

/-- `updateCoefficients`.  `omega = 2π·frequency/SampleRate` is irrational, so
its sine and cosine are obtained through the abstract `RealFns` record at the
angle `2·frequency/SampleRate` measured in units of π.  Exactly as in the
source, `b0,b1,b2,a1,a2` are divided by `a0` while the `a0` field itself keeps
its un-normalized value `1 + alpha`. -/
def updateCoefficients (f : Filter) (fns : RealFns) : Filter :=
  let omegaPi : ℚ := 2 * f.frequency / (SampleRate : ℚ)
  let sin := fns.sinPi omegaPi
  let cos := fns.cosPi omegaPi
  let q := clampResonance f.resonance
  let alpha := sin / (2 * q)
  let g :=
    match f.type with
    | .lowPass =>
        { f with b0 := (1 - cos) / 2, b1 := 1 - cos, b2 := (1 - cos) / 2,
                 a0 := 1 + alpha, a1 := -2 * cos, a2 := 1 - alpha }
    | .highPass =>
        { f with b0 := (1 + cos) / 2, b1 := -(1 + cos), b2 := (1 + cos) / 2,
                 a0 := 1 + alpha, a1 := -2 * cos, a2 := 1 - alpha }
    | .bandPass =>
        { f with b0 := alpha, b1 := 0, b2 := -alpha,
                 a0 := 1 + alpha, a1 := -2 * cos, a2 := 1 - alpha }
    | .notch =>
        { f with b0 := 1, b1 := -2 * cos, b2 := 1,
                 a0 := 1 + alpha, a1 := -2 * cos, a2 := 1 - alpha }
  { g with b0 := g.b0 / g.a0, b1 := g.b1 / g.a0, b2 := g.b2 / g.a0,
           a1 := g.a1 / g.a0, a2 := g.a2 / g.a0 }

/-- `NewLowPassFilter`. -/
def NewLowPassFilter (fns : RealFns) (freq resonance : ℚ) : Filter :=
  updateCoefficients
    { type := .lowPass, frequency := freq, resonance := resonance,
      a0 := 0, a1 := 0, a2 := 0, b0 := 0, b1 := 0, b2 := 0,
      x1 := 0, x2 := 0, y1 := 0, y2 := 0 } fns

/-- `NewHighPassFilter`. -/
def NewHighPassFilter (fns : RealFns) (freq resonance : ℚ) : Filter :=
  updateCoefficients
    { type := .highPass, frequency := freq, resonance := resonance,
      a0 := 0, a1 := 0, a2 := 0, b0 := 0, b1 := 0, b2 := 0,
      x1 := 0, x2 := 0, y1 := 0, y2 := 0 } fns

/-- The clamp applied to the sample written back into the buffer (the Go code
labels it "soft clipping to prevent filter instability"). -/
def clampOut (y : ℚ) : ℚ := if y > 1 then 1 else if y < -1 then -1 else y

/-- The biquad difference equation `y = b0·x + b1·x1 + b2·x2 − a1·y1 − a2·y2`
evaluated at input `x` against the filter's current history. -/
def yval (f : Filter) (x : ℚ) : ℚ :=
  f.b0 * x + f.b1 * f.x1 + f.b2 * f.x2 - f.a1 * f.y1 - f.a2 * f.y2

/-- One iteration of the `Process` loop body: compute `y`, shift the history
(storing the *unclamped* `y` as the new `y1`), and emit the clamped sample. -/
def step (f : Filter) (x : ℚ) : Filter × ℚ :=
  let y := f.yval x
  ({ f with x2 := f.x1, x1 := x, y2 := f.y1, y1 := y }, clampOut y)

/-- The `Process` loop over the whole buffer. -/
def processBuffer (f : Filter) : List ℚ → Filter × List ℚ
  | [] => (f, [])
  | x :: xs =>
      let p := f.step x
      let r := p.1.processBuffer xs
      (r.1, p.2 :: r.2)

/-- `Process(buffer, params)`: refresh `frequency` and `resonance` from the
parameter store (recomputing coefficients on each hit), then run the per-sample
loop. -/
def Process (f : Filter) (fns : RealFns) (pm : ParameterManager) (buffer : List ℚ) :
    Filter × List ℚ :=
  let f1 :=
    match pm.Get "filter_frequency" with
    | some newFreq => updateCoefficients { f with frequency := newFreq } fns
    | none => f
  let f2 :=
    match pm.Get "filter_resonance" with
    | some newRes => updateCoefficients { f1 with resonance := newRes } fns
    | none => f1
  f2.processBuffer buffer

/-- `Reset`: zero the history. -/
def Reset (f : Filter) : Filter := { f with x1 := 0, x2 := 0, y1 := 0, y2 := 0 }

end Filter

/-! ## Oscillators (`oscillators.go`) -/

/-- `OscillatorType` enum. -/
inductive OscillatorType
  | sine
  | saw
  | square
  | triangle
  | noise
  deriving DecidableEq

/-- `Oscillator` struct.  `phasePi` and `phaseIncPi` store the radian values
`Phase` and `phaseInc` in units of π (so `Phase ∈ [0, 2π)` reads
`phasePi ∈ [0, 2)` and `phaseInc = 2π·freq/SampleRate` reads
`phaseIncPi = 2·freq/SampleRate`). -/
structure Oscillator where
  type : OscillatorType
  frequency : ℚ
  amplitude : ℚ
  phasePi : ℚ
  phaseIncPi : ℚ
  deriving DecidableEq

/-- `NewOscillator`. -/
def NewOscillator (oscType : OscillatorType) (freq amp : ℚ) : Oscillator :=
  { type := oscType, frequency := freq, amplitude := amp,
    phasePi := 0, phaseIncPi := 2 * freq / (SampleRate : ℚ) }

/-- The linear-congruential `randState` update from `randFloat64`, on the
64-bit unsigned wraparound ring. -/
def lcgNext (s : ℕ) : ℕ := (s * 6364136223846793005 + 1442695040888963407) % 2 ^ 64

/-- `float64(randState>>32) / float64(1<<32)`: the high 32 bits of the state,
scaled into `[0, 1)`. -/
def lcgFloat (s : ℕ) : ℚ := ((s / 2 ^ 32 : ℕ) : ℚ) / 2 ^ 32

namespace Oscillator

/-- The waveform sample computed from the current phase (`randVal` is the
value `randFloat64()` returned for the noise variant).  In units of π:
`2·(Phase/2π) − 1 = phasePi − 1`, `Phase < π ↔ phasePi < 1`,
`2·Phase/π = 2·phasePi`. -/
def sampleAt (fns : RealFns) (o : Oscillator) (randVal : ℚ) : ℚ :=
  match o.type with
  | .sine => fns.sinPi o.phasePi
  | .saw => o.phasePi - 1
  | .square => if o.phasePi < 1 then 1 else -1
  | .triangle => if o.phasePi < 1 then -1 + 2 * o.phasePi else 3 - 2 * o.phasePi
  | .noise => randVal * 2 - 1

/-- The phase advance at the end of each loop iteration: add the increment and
wrap once at `2π` (`2` in units of π). -/
def advance (o : Oscillator) : Oscillator :=
  let p := o.phasePi + o.phaseIncPi
  { o with phasePi := if p ≥ 2 then p - 2 else p }

/-- The frequency refresh at the top of `Generate`: if the store holds
`osc1_frequency`, adopt it and recompute the phase increment. -/
def applyFreqUpdate (o : Oscillator) (pm : ParameterManager) : Oscillator :=
  match pm.Get "osc1_frequency" with
  | some newFreq =>
      { o with frequency := newFreq, phaseIncPi := 2 * newFreq / (SampleRate : ℚ) }
  | none => o

/-- The `Generate` loop: produce `n` samples, threading the noise generator
state; returns the final oscillator, the final `randState` and the samples. -/
def genLoop (fns : RealFns) : Oscillator → ℕ → ℕ → Oscillator × ℕ × List ℚ
  | o, rand, 0 => (o, rand, [])
  | o, rand, n + 1 =>
      let rand' := if o.type = .noise then lcgNext rand else rand
      let randVal := if o.type = .noise then lcgFloat rand' else 0
      let out := o.sampleAt fns randVal * o.amplitude
      let r := genLoop fns o.advance rand' n
      (r.1, r.2.1, out :: r.2.2)

/-- `Generate(buffer, params)` for a buffer of `n` samples. -/
def Generate (fns : RealFns) (o : Oscillator) (pm : ParameterManager) (rand n : ℕ) :
    Oscillator × ℕ × List ℚ :=
  genLoop fns (o.applyFreqUpdate pm) rand n

end Oscillator

/-! ## Effects (`effect.go`) -/

/-- `EffectType` enum; `reverb` is declared but `Process` has no case for it. -/
inductive EffectType
  | delay
  | reverb
  | distortion
  | chorus
  | bitCrusher
  deriving DecidableEq

/-- `Effect` struct.  The `Parameters` map is modelled with Go map read
semantics: a missing key reads as `0`.  `lfoPhasePi` stores `lfoPhase` in
units of π. -/
structure Effect where
  type : EffectType
  mix : ℚ
  params : String → ℚ
  delayLine : List ℚ
  delayIndex : ℕ
  lfoPhasePi : ℚ
  sampleHold : ℚ
  holdCount : ℤ

/-- `NewEffect`: defaults per variant (delay line sized 1 s for delay, 100 ms
for chorus). -/
def NewEffect (effectType : EffectType) : Effect :=
  let base : Effect :=
    { type := effectType, mix := 1/2, params := fun _ => 0,
      delayLine := [], delayIndex := 0, lfoPhasePi := 0,
      sampleHold := 0, holdCount := 0 }
  match effectType with
  | .delay =>
      { base with delayLine := List.replicate SampleRate 0,
                  params := fun k => if k = "time" then 1/4 else
                    if k = "feedback" then 3/10 else 0 }
  | .distortion =>
      { base with params := fun k => if k = "drive" then 5 else
                    if k = "level" then 7/10 else 0 }
  | .chorus =>
      { base with delayLine := List.replicate (SampleRate / 10) 0,
                  params := fun k => if k = "rate" then 1/2 else
                    if k = "depth" then 3/10 else
                    if k = "delay" then 1/50 else 0 }
  | .bitCrusher =>
      { base with params := fun k => if k = "bits" then 8 else
                    if k = "sampleRate" then 1/2 else 0 }
  | .reverb => base

namespace Effect

/-- The delay length in samples computed at the top of `processDelay`:
`int(time·SampleRate)`, clamped to the delay-line capacity minus one when it
would reach the capacity. -/
def delaySamplesClamped (e : Effect) : ℤ :=
  let delaySamples := ratTrunc (e.params "time" * (SampleRate : ℚ))
  if delaySamples ≥ (e.delayLine.length : ℤ) then (e.delayLine.length : ℤ) - 1
  else delaySamples

/-- The `processDelay` loop: `D` is the (already clamped) delay in samples,
`fb` the feedback, `mix` the dry/wet mix.  Returns the final delay line, the
final write index and the produced samples. -/
def delayLoop (D : ℤ) (fb mix : ℚ) : List ℚ → List ℚ → ℕ → List ℚ × ℕ × List ℚ
  | [], dl, idx => (dl, idx, [])
  | x :: xs, dl, idx =>
      let L := dl.length
      let readIndex := ((((idx : ℤ) - D + (L : ℤ)) % (L : ℤ))).toNat
      let delayed := dl.getD readIndex 0
      let dl' := dl.set idx (x + delayed * fb)
      let out := x * (1 - mix) + delayed * mix
      let r := delayLoop D fb mix xs dl' ((idx + 1) % L)
      (r.1, r.2.1, out :: r.2.2)

/-- `processDelay`. -/
def processDelay (e : Effect) (buffer : List ℚ) : Effect × List ℚ :=
  let r := delayLoop e.delaySamplesClamped (e.params "feedback") e.mix
    buffer e.delayLine e.delayIndex
  ({ e with delayLine := r.1, delayIndex := r.2.1 }, r.2.2)

/-- `processDistortion` per sample: drive, `tanh` soft clip, output level,
dry/wet mix.  No effect state is touched. -/
def distortionSample (fns : RealFns) (drive level mix x : ℚ) : ℚ :=
  let wet := fns.tanh (x * drive) * level
  x * (1 - mix) + wet * mix

/-- `processDistortion`. -/
def processDistortion (e : Effect) (fns : RealFns) (buffer : List ℚ) :
    Effect × List ℚ :=
  (e, buffer.map (distortionSample fns (e.params "drive") (e.params "level") e.mix))

/-- The modulated integer delay computed for one chorus sample from the
current LFO phase: `int((baseDelay + baseDelay·sin(lfoPhase)·depth)·SampleRate)`. -/
def chorusDelayInt (fns : RealFns) (depth baseDelay : ℚ) (lfoPhasePi : ℚ) : ℤ :=
  let lfo := fns.sinPi lfoPhasePi * depth
  let delayTime := baseDelay + baseDelay * lfo
  ratTrunc (delayTime * (SampleRate : ℚ))

/-- The `processChorus` loop.  Per sample: advance the LFO phase (wrapped at
`2π`), split the modulated delay into integer and fractional parts; when the
integer part is below the buffer length minus one, read two adjacent history
samples (before writing!), write the current input, interpolate and mix; the
write index only advances in that branch.  Otherwise the sample passes
through untouched. -/
def chorusLoop (fns : RealFns) (rate depth baseDelay mix : ℚ) :
    List ℚ → List ℚ → ℕ → ℚ → List ℚ × ℕ × ℚ × List ℚ
  | [], dl, idx, ph => (dl, idx, ph, [])
  | x :: xs, dl, idx, ph =>
      let L := dl.length
      let lfo := fns.sinPi ph * depth
      let lfoIncPi := 2 * rate / (SampleRate : ℚ)
      let ph1 := ph + lfoIncPi
      let ph' := if ph1 ≥ 2 then ph1 - 2 else ph1
      let delayTime := baseDelay + baseDelay * lfo
      let delaySamples := delayTime * (SampleRate : ℚ)
      let dsi := ratTrunc delaySamples
      let fraction := delaySamples - (dsi : ℚ)
      if dsi < (L : ℤ) - 1 then
        let r1 := ((((idx : ℤ) - dsi + (L : ℤ)) % (L : ℤ))).toNat
        let r2 := ((((r1 : ℤ) - 1 + (L : ℤ)) % (L : ℤ))).toNat
        let s1 := dl.getD r1 0
        let s2 := dl.getD r2 0
        let delayed := s1 * (1 - fraction) + s2 * fraction
        let dl' := dl.set idx x
        let out := x * (1 - mix) + delayed * mix
        let r := chorusLoop fns rate depth baseDelay mix xs dl' ((idx + 1) % L) ph'
        (r.1, r.2.1, r.2.2.1, out :: r.2.2.2)
      else
        let r := chorusLoop fns rate depth baseDelay mix xs dl idx ph'
        (r.1, r.2.1, r.2.2.1, x :: r.2.2.2)

/-- `processChorus`. -/
def processChorus (e : Effect) (fns : RealFns) (buffer : List ℚ) : Effect × List ℚ :=
  let r := chorusLoop fns (e.params "rate") (e.params "depth") (e.params "delay")
    e.mix buffer e.delayLine e.delayIndex e.lfoPhasePi
  ({ e with delayLine := r.1, delayIndex := r.2.1, lfoPhasePi := r.2.2.1 }, r.2.2.2)

/-- Per-sign quantization from `processBitCrusher`: `floor` toward zero for
positive samples, `ceil` toward zero for the rest. -/
def crushQuantize (stepSize s : ℚ) : ℚ :=
  if s > 0 then (⌊s / stepSize⌋ : ℚ) * stepSize else (⌈s / stepSize⌉ : ℚ) * stepSize

/-- The `processBitCrusher` loop, threading the sample-hold value and the
countdown. -/
def crusherLoop (stepSize : ℚ) (holdPeriod : ℤ) (mix : ℚ) :
    List ℚ → ℚ → ℤ → ℚ × ℤ × List ℚ
  | [], hold, cnt => (hold, cnt, [])
  | x :: xs, hold, cnt =>
      let hold' := if cnt = 0 then x else hold
      let cnt1 := (if cnt = 0 then holdPeriod else cnt) - 1
      let wet := crushQuantize stepSize hold'
      let out := x * (1 - mix) + wet * mix
      let r := crusherLoop stepSize holdPeriod mix xs hold' cnt1
      (r.1, r.2.1, out :: r.2.2)

/-- `processBitCrusher`.  `levels = 2^bits` goes through the abstract
`math.Pow`; `holdPeriod = int(1/sampleRateReduction)`. -/
def processBitCrusher (e : Effect) (fns : RealFns) (buffer : List ℚ) :
    Effect × List ℚ :=
  let stepSize := 2 / fns.pow2 (e.params "bits")
  let holdPeriod := ratTrunc (1 / e.params "sampleRate")
  let r := crusherLoop stepSize holdPeriod e.mix buffer e.sampleHold e.holdCount
  ({ e with sampleHold := r.1, holdCount := r.2.1 }, r.2.2)

/-- `Process(buffer, params)`: variant dispatch.  The Go `switch` has no case
for `EffectReverb`, so that variant leaves the buffer and the state alone
(the `params` argument is accepted and ignored, as in the source). -/
def Process (e : Effect) (fns : RealFns) (pm : ParameterManager) (buffer : List ℚ) :
    Effect × List ℚ :=
  match e.type with
  | .delay => e.processDelay buffer
  | .distortion => e.processDistortion fns buffer
  | .chorus => e.processChorus fns buffer
  | .bitCrusher => e.processBitCrusher fns buffer
  | .reverb => (e, buffer)

end Effect

/-! ## Engine start/stop (`engine.go`) -/

/-- The PortAudio calls `Start`/`Stop` can make, recorded as a trace. -/
inductive DriverAction
  | paInitialize
  | openStream
  | startStream
  | paTerminate
  deriving DecidableEq

/-- Which of the three fallible driver steps fail on this run. -/
structure DriverBehavior where
  initFails : Bool
  openFails : Bool
  startFails : Bool
  deriving DecidableEq

/-- The engine state visible to `Start`/`Stop`/`IsRunning`: whether PortAudio
is initialized, whether `ae.stream` holds an open stream, and the atomic
`isRunning` flag. -/
structure EngineState where
  paInitialized : Bool
  streamOpen : Bool
  isRunning : Bool
  deriving DecidableEq

/-- The freshly constructed engine: everything off. -/
def EngineState.initial : EngineState :=
  { paInitialized := false, streamOpen := false, isRunning := false }

/-- `AudioEngine.Start`, step by step as in the source: initialize PortAudio
(report on failure); open the default stream (on failure terminate PortAudio
and report); store the stream and set `isRunning` to 1; start the stream
(on failure report — with no cleanup and `isRunning` left set); succeed.
Returns the new state, the error (`none` = nil) and the driver-call trace. -/
def engineStart (d : DriverBehavior) (s : EngineState) :
    EngineState × Option String × List DriverAction :=
  if d.initFails then
    (s, some "failed to initialize PortAudio", [.paInitialize])
  else
    let s1 := { s with paInitialized := true }
    if d.openFails then
      ({ s1 with paInitialized := false }, some "failed to open audio stream",
        [.paInitialize, .openStream, .paTerminate])
    else
      let s2 := { s1 with streamOpen := true, isRunning := true }
      if d.startFails then
        (s2, some "failed to start audio stream", [.paInitialize, .openStream, .startStream])
      else
        (s2, none, [.paInitialize, .openStream, .startStream])

/-- `AudioEngine.Stop`: clear the flag, stop/close the stream if one was ever
stored, terminate PortAudio. -/
def engineStop (s : EngineState) : EngineState :=
  { s with isRunning := false, streamOpen := false, paInitialized := false }

/-- `AudioEngine.IsRunning`: atomic read of the flag. -/
def engineIsRunning (s : EngineState) : Bool := s.isRunning

/-! ## Shared helper lemmas -/

theorem clampOut_bounds (y : ℚ) : -1 ≤ Filter.clampOut y ∧ Filter.clampOut y ≤ 1 := by
  unfold Filter.clampOut
  split
  · norm_num
  · split <;> [norm_num; constructor] <;> linarith [show ¬ y > 1 from by assumption]

theorem processBuffer_out_bounds (bs : List ℚ) (f : Filter) :
    ∀ y ∈ (f.processBuffer bs).2, -1 ≤ y ∧ y ≤ 1 := by
  induction bs generalizing f with
  | nil => intro y hy; simp [Filter.processBuffer] at hy
  | cons x xs ih =>
      intro y hy
      simp only [Filter.processBuffer, List.mem_cons] at hy
      rcases hy with h | h
      · exact h ▸ clampOut_bounds _
      · exact ih _ y h

theorem filterProcess_out_bounds (f : Filter) (fns : RealFns) (pm : ParameterManager)
    (buffer : List ℚ) : ∀ y ∈ (f.Process fns pm buffer).2, -1 ≤ y ∧ y ≤ 1 := by
  unfold Filter.Process
  exact processBuffer_out_bounds buffer _

/-! ## C1 — `Start` failure handling -/

/-- C1 counterexample: with the driver failing at the stream-start step, from
the freshly constructed (Stopped) engine, `Start` returns a descriptive error
but the stream stays open, PortAudio stays initialized, and `IsRunning()`
reports `true` — the claimed cleanup and return to `Stopped` do not happen on
this failing step. -/
theorem engineStart_streamStartFailure_counterexample :
    (engineStart ⟨false, false, true⟩ EngineState.initial).2.1 =
      some "failed to start audio stream" ∧
    engineIsRunning (engineStart ⟨false, false, true⟩ EngineState.initial).1 = true ∧
    (engineStart ⟨false, false, true⟩ EngineState.initial).1.streamOpen = true ∧
    (engineStart ⟨false, false, true⟩ EngineState.initial).1.paInitialized = true :=
  ⟨rfl, rfl, rfl, rfl⟩

/-- C1 (amended): `Start` returns a descriptive error on every failing step,
and for the first two failing steps (driver initialization, stream open) every
resource opened before the failing step is released and the running flag is
untouched — so a Stopped engine stays Stopped; but on a stream-start failure
the stream remains open, PortAudio remains initialized, and `IsRunning()`
returns `true`. -/
theorem engineStart_failure_behaviour (s : EngineState) (o t : Bool) :
    engineStart ⟨true, o, t⟩ s =
      (s, some "failed to initialize PortAudio", [.paInitialize]) ∧
    engineStart ⟨false, true, t⟩ s =
      ({ s with paInitialized := false }, some "failed to open audio stream",
        [.paInitialize, .openStream, .paTerminate]) ∧
    engineStart ⟨false, false, true⟩ s =
      ({ s with paInitialized := true, streamOpen := true, isRunning := true },
        some "failed to start audio stream",
        [.paInitialize, .openStream, .startStream]) ∧
    engineIsRunning (engineStart ⟨false, false, true⟩ s).1 = true :=
  ⟨rfl, rfl, rfl, rfl⟩

/-! ## C2 — `Start` while already running -/

/-- C2 counterexample: calling `Start` on an engine that is already Running
(stream open, flag set), with a fully succeeding driver, returns no error at
all and opens a new stream — rather than reporting an already-running
condition and opening nothing. -/
theorem engineStart_whileRunning_counterexample :
    (engineStart ⟨false, false, false⟩ ⟨true, true, true⟩).2.1 = none ∧
    DriverAction.openStream ∈ (engineStart ⟨false, false, false⟩ ⟨true, true, true⟩).2.2 := by
  exact ⟨rfl, by decide⟩

/-- C2 (amended): `Start` never consults the running flag.  Called while the
engine is Running, with a succeeding driver it re-initializes PortAudio,
opens (and starts) a new stream, overwrites the stored stream, and returns no
error. -/
theorem engineStart_noReentrancyGuard (s : EngineState) (h : s.isRunning = true) :
    engineStart ⟨false, false, false⟩ s =
      ({ s with paInitialized := true, streamOpen := true, isRunning := true }, none,
        [.paInitialize, .openStream, .startStream]) ∧
    DriverAction.openStream ∈ (engineStart ⟨false, false, false⟩ s).2.2 :=
  ⟨rfl, by simp [engineStart]⟩

theorem engineStart_noReentrancyGuard_witness :
    (true = true) ∧
    engineStart ⟨false, false, false⟩ ⟨true, true, true⟩ =
      (⟨true, true, true⟩, none, [.paInitialize, .openStream, .startStream]) :=
  ⟨rfl, (engineStart_noReentrancyGuard ⟨true, true, true⟩ rfl).1⟩

/-! ## C9 — the reverb variant is a no-op -/

/-- C9: an `Effect` whose type is `EffectReverb` falls through the `Process`
dispatch switch: the buffer and the whole effect state come back unchanged. -/
theorem effectProcess_reverb_identity (fns : RealFns) (e : Effect)
    (pm : ParameterManager) (buffer : List ℚ) (h : e.type = EffectType.reverb) :
    e.Process fns pm buffer = (e, buffer) := by
  unfold Effect.Process
  rw [h]

theorem effectProcess_reverb_identity_witness :
    (NewEffect .reverb).type = EffectType.reverb ∧
    (NewEffect .reverb).Process ⟨fun _ => 0, fun _ => 0, fun _ => 0, fun _ => 0⟩
      NewParameterManager [3, -1/2] = (NewEffect .reverb, [3, -1/2]) :=
  ⟨rfl, effectProcess_reverb_identity _ _ _ _ rfl⟩

/-! ## C3 — filter difference equation and history clamping -/

/-- C3 counterexample: a filter whose coefficients pass the input straight
through (`b0 = 1`, all other coefficients zero) processed on the buffer
`[2]` stores `y1 = 2` — the *unclamped* output — even though the claim says
the stored `y1` is the output clamped into `[−1, 1]`. -/
theorem filter_history_clamp_counterexample :
    ((Filter.Process ⟨.lowPass, 1000, 7/10, 1, 0, 0, 1, 0, 0, 0, 0, 0, 0⟩
        ⟨fun _ => 0, fun _ => 0, fun _ => 0, fun _ => 0⟩
        NewParameterManager [2]).1).y1 = 2 ∧
    ¬ ((2 : ℚ) ≤ 1) := by
  refine ⟨?_, by norm_num⟩
  norm_num [Filter.Process, ParameterManager.Get, NewParameterManager,
    Filter.processBuffer, Filter.step, Filter.yval]

/-- C3 (amended): each `Process` loop iteration computes
`y = b0·x + b1·x1 + b2·x2 − a1·y1 − a2·y2`, writes the clamped `y` to the
buffer, but stores the *unclamped* `y` as the new `y1` history element (so
the history can leave `[−1, 1]`); every sample written back to the buffer
does lie in `[−1, 1]`. -/
theorem filter_process_difference_equation (f : Filter) (x : ℚ) (fns : RealFns)
    (pm : ParameterManager) (buffer : List ℚ) :
    f.step x = ({ f with x2 := f.x1, x1 := x, y2 := f.y1, y1 := f.yval x },
      Filter.clampOut (f.yval x)) ∧
    (∀ y ∈ (f.Process fns pm buffer).2, -1 ≤ y ∧ y ≤ 1) :=
  ⟨rfl, filterProcess_out_bounds f fns pm buffer⟩

theorem filter_process_difference_equation_witness :
    ((-1 : ℚ) ≤ 1 ∧ (1 : ℚ) ≤ 1) := by
  have h := (filter_process_difference_equation
    ⟨.lowPass, 1000, 7/10, 1, 0, 0, 1, 0, 0, 0, 0, 0, 0⟩ 2
    ⟨fun _ => 0, fun _ => 0, fun _ => 0, fun _ => 0⟩ NewParameterManager [2]).2
  refine h 1 ?_
  norm_num [Filter.Process, ParameterManager.Get, NewParameterManager,
    Filter.processBuffer, Filter.step, Filter.yval, Filter.clampOut]

/-! ## C6 — coefficient normalization -/

theorem clampResonance_bounds (q : ℚ) :
    1/10 ≤ Filter.clampResonance q ∧ Filter.clampResonance q ≤ 10 := by
  unfold Filter.clampResonance
  split
  next h => norm_num
  next h =>
    split
    next h2 => norm_num
    next h2 => exact ⟨le_of_not_lt h, le_of_not_lt h2⟩

/-- Helper abbreviation for statements: the `alpha = sin(omega)/(2·Q)` value
`updateCoefficients` computes for a filter (with `Q` already clamped). -/
def Filter.alphaOf (f : Filter) (fns : RealFns) : ℚ :=
  fns.sinPi (2 * f.frequency / (SampleRate : ℚ)) / (2 * Filter.clampResonance f.resonance)

/-- Helper abbreviation for statements: the `cos(omega)` value
`updateCoefficients` uses. -/
def Filter.cosOf (f : Filter) (fns : RealFns) : ℚ :=
  fns.cosPi (2 * f.frequency / (SampleRate : ℚ))

/-- C6 counterexample: for the low-pass variant with `sin(omega) = 3/5`,
`cos(omega) = 4/5` and resonance `Q = 1` (inside the clamp range), the stored
`a0` coefficient after `updateCoefficients` is `1 + alpha = 13/10`, not `1`:
only the other five coefficients are divided by `a0`; `a0` itself is never
normalized. -/
theorem filter_a0_not_normalized_counterexample :
    (Filter.updateCoefficients ⟨.lowPass, 1000, 1, 0, 0, 0, 0, 0, 0, 0, 0, 0, 0⟩
        ⟨fun _ => 3/5, fun _ => 4/5, fun _ => 0, fun _ => 0⟩).a0 = 13/10 ∧
    (13/10 : ℚ) ≠ 1 := by
  constructor
  · norm_num [Filter.updateCoefficients, Filter.clampResonance]
  · norm_num

/-- C6 (amended): for every filter variant, the clamped resonance lies in
`[0.1, 10]` and `updateCoefficients` divides the five coefficients
`b0, b1, b2, a1, a2` by `a0 = 1 + alpha` (so multiplying each normalized
coefficient back by `a0` recovers the raw RBJ table entry), while the stored
`a0` field keeps the un-normalized value `1 + alpha`; and every sample the
filter's `Process` writes back (its impulse response in particular, over any
number of samples) lies in `[−1, 1]`. -/
theorem filter_updateCoefficients_normalization (f : Filter) (fns : RealFns)
    (pm : ParameterManager) (buffer : List ℚ)
    (ha : 1 + f.alphaOf fns ≠ 0) :
    (1/10 ≤ Filter.clampResonance f.resonance ∧ Filter.clampResonance f.resonance ≤ 10) ∧
    (f.updateCoefficients fns).a0 = 1 + f.alphaOf fns ∧
    (f.updateCoefficients fns).a1 * (f.updateCoefficients fns).a0 = -2 * f.cosOf fns ∧
    (f.updateCoefficients fns).a2 * (f.updateCoefficients fns).a0 = 1 - f.alphaOf fns ∧
    (f.type = .lowPass →
      (f.updateCoefficients fns).b0 * (f.updateCoefficients fns).a0 = (1 - f.cosOf fns) / 2 ∧
      (f.updateCoefficients fns).b1 * (f.updateCoefficients fns).a0 = 1 - f.cosOf fns ∧
      (f.updateCoefficients fns).b2 * (f.updateCoefficients fns).a0 = (1 - f.cosOf fns) / 2) ∧
    (f.type = .highPass →
      (f.updateCoefficients fns).b0 * (f.updateCoefficients fns).a0 = (1 + f.cosOf fns) / 2 ∧
      (f.updateCoefficients fns).b1 * (f.updateCoefficients fns).a0 = -(1 + f.cosOf fns) ∧
      (f.updateCoefficients fns).b2 * (f.updateCoefficients fns).a0 = (1 + f.cosOf fns) / 2) ∧
    (f.type = .bandPass →
      (f.updateCoefficients fns).b0 * (f.updateCoefficients fns).a0 = f.alphaOf fns ∧
      (f.updateCoefficients fns).b1 * (f.updateCoefficients fns).a0 = 0 ∧
      (f.updateCoefficients fns).b2 * (f.updateCoefficients fns).a0 = -f.alphaOf fns) ∧
    (f.type = .notch →
      (f.updateCoefficients fns).b0 * (f.updateCoefficients fns).a0 = 1 ∧
      (f.updateCoefficients fns).b1 * (f.updateCoefficients fns).a0 = -2 * f.cosOf fns ∧
      (f.updateCoefficients fns).b2 * (f.updateCoefficients fns).a0 = 1) ∧
    (∀ y ∈ ((f.updateCoefficients fns).Process fns pm buffer).2, -1 ≤ y ∧ y ≤ 1) := by
  obtain ⟨t, freq, res, A0, A1, A2, B0, B1, B2, X1, X2, Y1, Y2⟩ := f
  refine ⟨clampResonance_bounds _, ?_⟩
  cases t <;>
    simp only [Filter.updateCoefficients, Filter.alphaOf, Filter.cosOf] at ha ⊢ <;>
    refine ⟨?_, div_mul_cancel₀ _ ha, div_mul_cancel₀ _ ha, ?_, ?_, ?_, ?_,
      fun y hy => filterProcess_out_bounds _ _ _ _ y hy⟩ <;>
    first
      | trivial
      | exact fun h => FilterType.noConfusion h
      | exact ⟨div_mul_cancel₀ _ ha, div_mul_cancel₀ _ ha, div_mul_cancel₀ _ ha⟩
      | exact fun h => ⟨div_mul_cancel₀ _ ha, div_mul_cancel₀ _ ha, div_mul_cancel₀ _ ha⟩

theorem filter_updateCoefficients_normalization_witness :
    (1 + Filter.alphaOf ⟨.lowPass, 1000, 1, 0, 0, 0, 0, 0, 0, 0, 0, 0, 0⟩
        ⟨fun _ => 3/5, fun _ => 4/5, fun _ => 0, fun _ => 0⟩ ≠ 0) ∧
    (Filter.updateCoefficients ⟨.lowPass, 1000, 1, 0, 0, 0, 0, 0, 0, 0, 0, 0, 0⟩
        ⟨fun _ => 3/5, fun _ => 4/5, fun _ => 0, fun _ => 0⟩).a0 =
      1 + Filter.alphaOf ⟨.lowPass, 1000, 1, 0, 0, 0, 0, 0, 0, 0, 0, 0, 0⟩
        ⟨fun _ => 3/5, fun _ => 4/5, fun _ => 0, fun _ => 0⟩ := by
  have ha : 1 + Filter.alphaOf ⟨.lowPass, 1000, 1, 0, 0, 0, 0, 0, 0, 0, 0, 0, 0⟩
      ⟨fun _ => 3/5, fun _ => 4/5, fun _ => 0, fun _ => 0⟩ ≠ 0 := by
    norm_num [Filter.alphaOf, Filter.clampResonance]
  exact ⟨ha, (filter_updateCoefficients_normalization _ _ NewParameterManager [] ha).2.1⟩

/-! ## C10 — `BatchSet` and the smoothers -/

/-- The value the last update for `key` in the batch carries, if any (later
entries in the iteration order override earlier ones). -/
def lastVal? : List (String × ℚ) → String → Option ℚ
  | [], _ => none
  | (k, v) :: rest, key =>
      match lastVal? rest key with
      | some w => some w
      | none => if k = key then some v else none

theorem batchSet_smoothing (us : List (String × ℚ)) (pm : ParameterManager) :
    (pm.BatchSet us).smoothing = pm.smoothing := by
  induction us generalizing pm with
  | nil => rfl
  | cons kv rest ih => exact ih (pm.batchSetOne kv.1 kv.2)

theorem batchSet_params (us : List (String × ℚ)) (pm : ParameterManager) (key : String) :
    (pm.BatchSet us).params key =
      match lastVal? us key with
      | some w => some w
      | none => pm.params key := by
  induction us generalizing pm with
  | nil => simp only [lastVal?]; rfl
  | cons kv rest ih =>
      obtain ⟨k, v⟩ := kv
      rw [show pm.BatchSet ((k, v) :: rest) = (pm.batchSetOne k v).BatchSet rest from rfl,
        ih]
      by_cases hk : k = key
      · subst hk
        rcases h : lastVal? rest k with _ | w <;>
          simp [lastVal?, h, ParameterManager.batchSetOne]
      · rcases h : lastVal? rest key with _ | w <;>
          simp [lastVal?, h, ParameterManager.batchSetOne, hk, Ne.symm hk]

theorem batchSet_atomicParams (us : List (String × ℚ)) (pm : ParameterManager)
    (key : String) :
    (pm.BatchSet us).atomicParams key =
      match lastVal? us key with
      | some w => (pm.atomicParams key).map (fun _ => w)
      | none => pm.atomicParams key := by
  induction us generalizing pm with
  | nil => simp only [lastVal?]; rfl
  | cons kv rest ih =>
      obtain ⟨k, v⟩ := kv
      rw [show pm.BatchSet ((k, v) :: rest) = (pm.batchSetOne k v).BatchSet rest from rfl,
        ih]
      by_cases hk : k = key
      · subst hk
        rcases h : lastVal? rest k with _ | w <;>
          cases hA : pm.atomicParams k <;>
            simp [lastVal?, h, ParameterManager.batchSetOne, hA]
      · rcases h : lastVal? rest key with _ | w <;>
          simp [lastVal?, h, ParameterManager.batchSetOne, hk, Ne.symm hk]

/-- C10: `BatchSet` rewrites the primary record and refreshes a registered
lock-free slot for each updated key, but never touches an attached smoother
(its `current`, `target` and `active` fields survive unchanged); only `Set`
retargets the smoother and marks it active. -/
theorem batchSet_leaves_smoother (pm : ParameterManager) (us : List (String × ℚ))
    (key : String) (s : ParameterSmoother) (v : ℚ)
    (h : pm.smoothing key = some s) :
    (pm.BatchSet us).smoothing key = some s ∧
    ((pm.BatchSet us).params key =
      match lastVal? us key with
      | some w => some w
      | none => pm.params key) ∧
    ((pm.BatchSet us).atomicParams key =
      match lastVal? us key with
      | some w => (pm.atomicParams key).map (fun _ => w)
      | none => pm.atomicParams key) ∧
    (pm.Set key v).smoothing key = some { s with target := v, active := true } := by
  refine ⟨?_, batchSet_params us pm key, batchSet_atomicParams us pm key, ?_⟩
  · rw [batchSet_smoothing, h]
  · simp [ParameterManager.Set, h]

theorem batchSet_leaves_smoother_witness :
    (((NewParameterManager.RegisterAtomic "gain" 2).EnableSmoothing "gain"
        (1/2)).smoothing "gain" =
      some { current := 2, target := 2, rate := 1/2, active := false }) ∧
    ((((NewParameterManager.RegisterAtomic "gain" 2).EnableSmoothing "gain"
        (1/2)).BatchSet [("gain", 7), ("pan", 1)]).smoothing "gain" =
      some { current := 2, target := 2, rate := 1/2, active := false }) := by
  have h : ((NewParameterManager.RegisterAtomic "gain" 2).EnableSmoothing "gain"
      (1/2)).smoothing "gain" =
      some { current := 2, target := 2, rate := 1/2, active := false } := by
    simp [ParameterManager.EnableSmoothing, ParameterManager.RegisterAtomic,
      ParameterManager.GetWithDefault, ParameterManager.Get, NewParameterManager]
  exact ⟨h, (batchSet_leaves_smoother _ [("gain", 7), ("pan", 1)] "gain" _ 9 h).1⟩

/-! ## C7 — smoothing: monotone approach and exact convergence -/

theorem absFloat64_eq_abs (x : ℚ) : absFloat64 x = |x| := by
  unfold absFloat64
  split
  next h => rw [abs_of_neg h]
  next h => rw [abs_of_nonneg (le_of_not_lt h)]

/-- The manager state after `n` successive `GetSmoothed(key, d)` calls
(each call at most once per logical sample position, as the spec requires). -/
def smIter (key : String) (d : ℚ) (pm : ParameterManager) : ℕ → ParameterManager
  | 0 => pm
  | n + 1 => ((smIter key d pm n).GetSmoothed key d).1

/-- The value returned by the `(n+1)`-st `GetSmoothed(key, d)` call. -/
def smValue (key : String) (d : ℚ) (pm : ParameterManager) (n : ℕ) : ℚ :=
  ((smIter key d pm n).GetSmoothed key d).2

/-- The C7 scenario set-up: `EnableSmoothing(key, r)` followed by
`Set(key, T)`. -/
def smScenario (pm0 : ParameterManager) (key : String) (r T : ℚ) : ParameterManager :=
  (pm0.EnableSmoothing key r).Set key T

theorem getSmoothed_inactive (pm : ParameterManager) (key : String) (d T r : ℚ)
    (hp : pm.params key = some T) (hs : pm.smoothing key = some ⟨T, T, r, false⟩) :
    pm.GetSmoothed key d = (pm, T) := by
  simp [ParameterManager.GetSmoothed, hs, ParameterManager.GetWithDefault,
    ParameterManager.Get, hp]

theorem getSmoothed_active_snap (pm : ParameterManager) (key : String) (d : ℚ)
    (cur tgt rate : ℚ) (hs : pm.smoothing key = some ⟨cur, tgt, rate, true⟩)
    (hcut : absFloat64 (tgt - (cur + (tgt - cur) * rate)) < 1/10000) :
    pm.GetSmoothed key d =
      ({ pm with smoothing := fun k =>
          (if k = key then some ⟨tgt, tgt, rate, false⟩ else pm.smoothing k) }, tgt) := by
  simp only [ParameterManager.GetSmoothed, hs]
  rw [if_pos hcut]
  simp

theorem getSmoothed_active_nosnap (pm : ParameterManager) (key : String) (d : ℚ)
    (cur tgt rate : ℚ) (hs : pm.smoothing key = some ⟨cur, tgt, rate, true⟩)
    (hcut : ¬ absFloat64 (tgt - (cur + (tgt - cur) * rate)) < 1/10000) :
    pm.GetSmoothed key d =
      ({ pm with smoothing := fun k =>
          (if k = key then some ⟨cur + (tgt - cur) * rate, tgt, rate, true⟩
            else pm.smoothing k) }, cur + (tgt - cur) * rate) := by
  simp only [ParameterManager.GetSmoothed, hs]
  rw [if_neg hcut]
  simp

/-- Orbit invariant for the C7 scenario: the primary record holds `T`, and the
smoother is either still active with `current = T − (T−c0)·(1−r)^n` (in which
case, for `n ≥ 1`, the distance is still at least the `1e-4` threshold, since
the snap check did not fire) or has snapped: `current = target = T`,
inactive. -/
theorem smoother_orbit (pm0 : ParameterManager) (key : String) (r T d : ℚ) (n : ℕ) :
    (smIter key d (smScenario pm0 key r T) n).params key = some T ∧
    (((smIter key d (smScenario pm0 key r T) n).smoothing key =
        some ⟨T - (T - pm0.GetWithDefault key 0) * (1 - r) ^ n, T, r, true⟩ ∧
      (1 ≤ n → 1/10000 ≤ |(T - pm0.GetWithDefault key 0) * (1 - r) ^ n|)) ∨
      (smIter key d (smScenario pm0 key r T) n).smoothing key =
        some ⟨T, T, r, false⟩) := by
  set c0 := pm0.GetWithDefault key 0 with hc0
  induction n with
  | zero =>
      constructor
      · simp [smIter, smScenario, ParameterManager.Set, ParameterManager.EnableSmoothing]
      · left
        refine ⟨?_, fun h => absurd h (by norm_num)⟩
        show ((pm0.EnableSmoothing key r).Set key T).smoothing key =
          some ⟨T - (T - c0) * (1 - r) ^ 0, T, r, true⟩
        simp [ParameterManager.Set, ParameterManager.EnableSmoothing, ← hc0,
          ParameterSmoother.mk.injEq]
        try ring
  | succ n ih =>
      obtain ⟨hp, hs | hs⟩ := ih
      · by_cases hcut : absFloat64 (T - ((T - (T - c0) * (1 - r) ^ n) +
            (T - (T - (T - c0) * (1 - r) ^ n)) * r)) < 1/10000
        · have hgs := getSmoothed_active_snap _ key d _ _ _ hs.1 hcut
          have hnext : smIter key d (smScenario pm0 key r T) (n + 1) =
              { smIter key d (smScenario pm0 key r T) n with
                smoothing := fun k =>
                  (if k = key then some ⟨T, T, r, false⟩
                    else (smIter key d (smScenario pm0 key r T) n).smoothing k) } := by
            rw [show smIter key d (smScenario pm0 key r T) (n + 1) =
              ((smIter key d (smScenario pm0 key r T) n).GetSmoothed key d).1 from rfl, hgs]
          refine ⟨?_, Or.inr ?_⟩
          · rw [hnext]; exact hp
          · rw [hnext]; simp
        · have hgs := getSmoothed_active_nosnap _ key d _ _ _ hs.1 hcut
          have hnext : smIter key d (smScenario pm0 key r T) (n + 1) =
              { smIter key d (smScenario pm0 key r T) n with
                smoothing := fun k =>
                  (if k = key then
                    some ⟨(T - (T - c0) * (1 - r) ^ n) +
                      (T - (T - (T - c0) * (1 - r) ^ n)) * r, T, r, true⟩
                    else (smIter key d (smScenario pm0 key r T) n).smoothing k) } := by
            rw [show smIter key d (smScenario pm0 key r T) (n + 1) =
              ((smIter key d (smScenario pm0 key r T) n).GetSmoothed key d).1 from rfl, hgs]
          refine ⟨?_, Or.inl ⟨?_, fun _ => ?_⟩⟩
          · rw [hnext]; exact hp
          · rw [hnext]
            simp [ParameterSmoother.mk.injEq]
            try ring
          · have e : T - ((T - (T - c0) * (1 - r) ^ n) +
                (T - (T - (T - c0) * (1 - r) ^ n)) * r) = (T - c0) * (1 - r) ^ (n + 1) := by
              ring
            have h2 := le_of_not_lt hcut
            rwa [absFloat64_eq_abs, e] at h2
      · have hfix := getSmoothed_inactive _ key d T r hp hs
        have hnext : smIter key d (smScenario pm0 key r T) (n + 1) =
            smIter key d (smScenario pm0 key r T) n := by
          rw [show smIter key d (smScenario pm0 key r T) (n + 1) =
            ((smIter key d (smScenario pm0 key r T) n).GetSmoothed key d).1 from rfl, hfix]
        rw [hnext]
        exact ⟨hp, Or.inr hs⟩

/-- One-call step characterization for the C7 scenario: after the call that
produces state `n+1`, either the smoother is still active at the geometric
current and that value was returned, or it has snapped to `T` exactly and `T`
was returned. -/
theorem smoother_step (pm0 : ParameterManager) (key : String) (r T d : ℚ) (n : ℕ) :
    ((smIter key d (smScenario pm0 key r T) (n + 1)).smoothing key =
        some ⟨T - (T - pm0.GetWithDefault key 0) * (1 - r) ^ (n + 1), T, r, true⟩ ∧
      smValue key d (smScenario pm0 key r T) n =
        T - (T - pm0.GetWithDefault key 0) * (1 - r) ^ (n + 1)) ∨
    ((smIter key d (smScenario pm0 key r T) (n + 1)).smoothing key =
        some ⟨T, T, r, false⟩ ∧
      smValue key d (smScenario pm0 key r T) n = T) := by
  set c0 := pm0.GetWithDefault key 0 with hc0
  obtain ⟨hp, hs | hs⟩ := smoother_orbit pm0 key r T d n
  · by_cases hcut : absFloat64 (T - ((T - (T - c0) * (1 - r) ^ n) +
        (T - (T - (T - c0) * (1 - r) ^ n)) * r)) < 1/10000
    · have hgs := getSmoothed_active_snap _ key d _ _ _ hs.1 hcut
      refine Or.inr ⟨?_, ?_⟩
      · rw [show smIter key d (smScenario pm0 key r T) (n + 1) =
          ((smIter key d (smScenario pm0 key r T) n).GetSmoothed key d).1 from rfl, hgs]
        simp
      · rw [show smValue key d (smScenario pm0 key r T) n =
          ((smIter key d (smScenario pm0 key r T) n).GetSmoothed key d).2 from rfl, hgs]
    · have hgs := getSmoothed_active_nosnap _ key d _ _ _ hs.1 hcut
      refine Or.inl ⟨?_, ?_⟩
      · rw [show smIter key d (smScenario pm0 key r T) (n + 1) =
          ((smIter key d (smScenario pm0 key r T) n).GetSmoothed key d).1 from rfl, hgs]
        simp [ParameterSmoother.mk.injEq]
        try ring
      · rw [show smValue key d (smScenario pm0 key r T) n =
          ((smIter key d (smScenario pm0 key r T) n).GetSmoothed key d).2 from rfl, hgs]
        ring
  · have hfix := getSmoothed_inactive _ key d T r hp hs
    refine Or.inr ⟨?_, ?_⟩
    · rw [show smIter key d (smScenario pm0 key r T) (n + 1) =
        ((smIter key d (smScenario pm0 key r T) n).GetSmoothed key d).1 from rfl, hfix]
      exact hs
    · rw [show smValue key d (smScenario pm0 key r T) n =
        ((smIter key d (smScenario pm0 key r T) n).GetSmoothed key d).2 from rfl, hfix]

/-- C7: with `EnableSmoothing(key, r)` for `r ∈ (0, 1]` followed by
`Set(key, T)`, every returned value is either exactly `T` or the geometric
interpolation `T − (T−c0)·(1−r)^(n+1)` produced by one
`current += (target − current)·rate` step per call; the returned values move
monotonically toward `T`; and within a call count bounded in terms of `r`,
the initial distance and the `1e-4` threshold, the returned value becomes
exactly `T` with the smoother deactivated (`current = target = T`,
`active = false`), and stays there. -/
theorem getSmoothed_monotone_convergence (pm0 : ParameterManager) (key : String)
    (r T d : ℚ) (hr0 : 0 < r) (hr1 : r ≤ 1) :
    (∀ n, smValue key d (smScenario pm0 key r T) n = T ∨
      smValue key d (smScenario pm0 key r T) n =
        T - (T - pm0.GetWithDefault key 0) * (1 - r) ^ (n + 1)) ∧
    (∀ n, |T - smValue key d (smScenario pm0 key r T) (n + 1)| ≤
      |T - smValue key d (smScenario pm0 key r T) n|) ∧
    (∃ N, ∀ n, N ≤ n →
      smValue key d (smScenario pm0 key r T) n = T ∧
      (smIter key d (smScenario pm0 key r T) n).smoothing key =
        some ⟨T, T, r, false⟩) := by
  set c0 := pm0.GetWithDefault key 0 with hc0
  set D := T - c0 with hD
  have h1r0 : (0 : ℚ) ≤ 1 - r := by linarith
  have h1r1 : 1 - r < 1 := by linarith
  have habs : ∀ k : ℕ, |T - (T - D * (1 - r) ^ k)| = |D| * (1 - r) ^ k := by
    intro k
    have e : T - (T - D * (1 - r) ^ k) = D * (1 - r) ^ k := by ring
    rw [e, abs_mul, abs_pow, abs_of_nonneg h1r0]
  have hval : ∀ n, smValue key d (smScenario pm0 key r T) n = T ∨
      smValue key d (smScenario pm0 key r T) n = T - D * (1 - r) ^ (n + 1) := by
    intro n
    rcases smoother_step pm0 key r T d n with ⟨-, h⟩ | ⟨-, h⟩
    · exact Or.inr h
    · exact Or.inl h
  refine ⟨hval, ?_, ?_⟩
  · intro n
    rcases smoother_step pm0 key r T d n with ⟨-, h⟩ | ⟨hsm, h⟩
    · rw [h, habs (n + 1)]
      rcases hval (n + 1) with h' | h' <;> rw [h']
      · simp only [sub_self, abs_zero]
        exact mul_nonneg (abs_nonneg D) (pow_nonneg h1r0 _)
      · rw [habs (n + 2)]
        have hpow : (1 - r) ^ (n + 2) ≤ (1 - r) ^ (n + 1) :=
          pow_le_pow_of_le_one h1r0 (le_of_lt h1r1) (by omega)
        exact mul_le_mul_of_nonneg_left hpow (abs_nonneg D)
    · have hp1 := (smoother_orbit pm0 key r T d (n + 1)).1
      have hfix := getSmoothed_inactive _ key d T r hp1 hsm
      have hv1 : smValue key d (smScenario pm0 key r T) (n + 1) = T := by
        rw [show smValue key d (smScenario pm0 key r T) (n + 1) =
          ((smIter key d (smScenario pm0 key r T) (n + 1)).GetSmoothed key d).2 from rfl,
          hfix]
      rw [h, hv1, sub_self, abs_zero]
  · have hM : ∃ M : ℕ, |D| * (1 - r) ^ M < 1/10000 := by
      by_cases hD0 : D = 0
      · exact ⟨0, by rw [hD0]; norm_num⟩
      · obtain ⟨M, hMlt⟩ := exists_pow_lt_of_lt_one
          (div_pos (by norm_num : (0:ℚ) < 1/10000) (abs_pos.mpr hD0)) h1r1
        refine ⟨M, ?_⟩
        have := (lt_div_iff (abs_pos.mpr hD0)).mp hMlt
        linarith [this]
    obtain ⟨M, hMlt⟩ := hM
    refine ⟨M + 1, fun n hn => ?_⟩
    have hsmall : |D| * (1 - r) ^ n < 1/10000 := by
      have hpow : (1 - r) ^ n ≤ (1 - r) ^ M :=
        pow_le_pow_of_le_one h1r0 (le_of_lt h1r1) (by omega)
      calc |D| * (1 - r) ^ n ≤ |D| * (1 - r) ^ M :=
            mul_le_mul_of_nonneg_left hpow (abs_nonneg D)
        _ < 1/10000 := hMlt
    obtain ⟨hp, hs | hs⟩ := smoother_orbit pm0 key r T d n
    · obtain ⟨-, hth⟩ := hs
      exfalso
      have := hth (by omega)
      rw [abs_mul, abs_pow, abs_of_nonneg h1r0] at this
      exact absurd hsmall (not_lt.mpr this)
    · have hfix := getSmoothed_inactive _ key d T r hp hs
      exact ⟨by simp [smValue, hfix], hs⟩

theorem getSmoothed_monotone_convergence_witness :
    ((0 : ℚ) < 1/2 ∧ (1/2 : ℚ) ≤ 1) ∧
    (smValue "freq" 0 (smScenario NewParameterManager "freq" (1/2) 1) 0 = 1 ∨
      smValue "freq" 0 (smScenario NewParameterManager "freq" (1/2) 1) 0 =
        1 - (1 - NewParameterManager.GetWithDefault "freq" 0) * (1 - 1/2) ^ (0 + 1)) :=
  ⟨⟨by norm_num, by norm_num⟩,
    (getSmoothed_monotone_convergence NewParameterManager "freq" (1/2) 1 0
      (by norm_num) (by norm_num)).1 0⟩

/-! ## C8 — oscillator phase wrapping -/

theorem advance_phase_mem (o : Oscillator) (h0 : 0 ≤ o.phaseIncPi) (h2 : o.phaseIncPi ≤ 2)
    (hp0 : 0 ≤ o.phasePi) (hp2 : o.phasePi < 2) :
    0 ≤ o.advance.phasePi ∧ o.advance.phasePi < 2 := by
  unfold Oscillator.advance
  dsimp only
  split
  next h => constructor <;> linarith
  next h =>
    rw [ge_iff_le, not_le] at h
    constructor <;> linarith

theorem genLoop_fst (fns : RealFns) (n : ℕ) :
    ∀ (o : Oscillator) (rand : ℕ),
    (Oscillator.genLoop fns o rand n).1 = Oscillator.advance^[n] o := by
  induction n with
  | zero => intro o rand; rfl
  | succ n ih =>
      intro o rand
      rw [Function.iterate_succ_apply]
      exact ih o.advance _

theorem advance_iterate_mem (k : ℕ) :
    ∀ o : Oscillator, 0 ≤ o.phaseIncPi → o.phaseIncPi ≤ 2 →
    0 ≤ o.phasePi → o.phasePi < 2 →
    0 ≤ (Oscillator.advance^[k] o).phasePi ∧ (Oscillator.advance^[k] o).phasePi < 2 := by
  induction k with
  | zero => intro o _ _ hp0 hp2; exact ⟨hp0, hp2⟩
  | succ k ih =>
      intro o h0 h2 hp0 hp2
      rw [Function.iterate_succ_apply]
      have hstep := advance_phase_mem o h0 h2 hp0 hp2
      exact ih o.advance h0 h2 hstep.1 hstep.2

/-- C8 counterexample: an oscillator constructed at 132300 Hz (three times the
sample rate) has phase increment `6π` (`6` in units of π); after one generated
sample the phase accumulator holds `4π`, outside the canonical `[0, 2π)`,
because the single conditional subtraction in `Generate` wraps at most once.
The claim fails for oscillators whose frequency exceeds the sample rate. -/
theorem oscillator_phase_wrap_counterexample :
    ((Oscillator.Generate ⟨fun _ => 0, fun _ => 0, fun _ => 0, fun _ => 0⟩
        (NewOscillator .sine 132300 1) NewParameterManager 0 1).1).phasePi = 4 ∧
    ¬ ((4 : ℚ) < 2) := by
  constructor
  · norm_num [Oscillator.Generate, Oscillator.genLoop, Oscillator.applyFreqUpdate,
      Oscillator.advance, NewOscillator, ParameterManager.Get, NewParameterManager,
      SampleRate]
  · norm_num

/-- C8 (amended): provided the phase increment in force after the per-call
frequency refresh corresponds to a frequency in `[0, SampleRate]` (increment
in `[0, 2π]`) and the phase starts in `[0, 2π)`, `Generate` leaves the phase
accumulator in `[0, 2π)` after every generated sample: the state after `n`
samples is the `n`-fold phase advance of the refreshed oscillator, and its
phase is in range for every `n`. -/
theorem oscillator_phase_wrap (fns : RealFns) (o : Oscillator) (pm : ParameterManager)
    (rand n : ℕ)
    (h0 : 0 ≤ (o.applyFreqUpdate pm).phaseIncPi)
    (h2 : (o.applyFreqUpdate pm).phaseIncPi ≤ 2)
    (hp0 : 0 ≤ (o.applyFreqUpdate pm).phasePi)
    (hp2 : (o.applyFreqUpdate pm).phasePi < 2) :
    (Oscillator.Generate fns o pm rand n).1 =
      Oscillator.advance^[n] (o.applyFreqUpdate pm) ∧
    0 ≤ (Oscillator.Generate fns o pm rand n).1.phasePi ∧
    (Oscillator.Generate fns o pm rand n).1.phasePi < 2 := by
  have hfst : (Oscillator.Generate fns o pm rand n).1 =
      Oscillator.advance^[n] (o.applyFreqUpdate pm) := genLoop_fst fns n _ rand
  have hmem := advance_iterate_mem n (o.applyFreqUpdate pm) h0 h2 hp0 hp2
  refine ⟨hfst, ?_, ?_⟩ <;> rw [hfst]
  · exact hmem.1
  · exact hmem.2

theorem oscillator_phase_wrap_witness :
    ((0 : ℚ) ≤ ((NewOscillator .sine 440 (3/10)).applyFreqUpdate
        NewParameterManager).phaseIncPi ∧
      ((NewOscillator .sine 440 (3/10)).applyFreqUpdate
        NewParameterManager).phaseIncPi ≤ 2) ∧
    (0 ≤ (Oscillator.Generate ⟨fun _ => 0, fun _ => 0, fun _ => 0, fun _ => 0⟩
        (NewOscillator .sine 440 (3/10)) NewParameterManager 0 3).1.phasePi ∧
      (Oscillator.Generate ⟨fun _ => 0, fun _ => 0, fun _ => 0, fun _ => 0⟩
        (NewOscillator .sine 440 (3/10)) NewParameterManager 0 3).1.phasePi < 2) := by
  have h0 : (0 : ℚ) ≤ ((NewOscillator .sine 440 (3/10)).applyFreqUpdate
      NewParameterManager).phaseIncPi := by
    norm_num [Oscillator.applyFreqUpdate, ParameterManager.Get, NewParameterManager,
      NewOscillator, SampleRate]
  have h2 : ((NewOscillator .sine 440 (3/10)).applyFreqUpdate
      NewParameterManager).phaseIncPi ≤ 2 := by
    norm_num [Oscillator.applyFreqUpdate, ParameterManager.Get, NewParameterManager,
      NewOscillator, SampleRate]
  have hp0 : (0 : ℚ) ≤ ((NewOscillator .sine 440 (3/10)).applyFreqUpdate
      NewParameterManager).phasePi := by
    norm_num [Oscillator.applyFreqUpdate, ParameterManager.Get, NewParameterManager,
      NewOscillator]
  have hp2 : ((NewOscillator .sine 440 (3/10)).applyFreqUpdate
      NewParameterManager).phasePi < 2 := by
    norm_num [Oscillator.applyFreqUpdate, ParameterManager.Get, NewParameterManager,
      NewOscillator]
  exact ⟨⟨h0, h2⟩,
    (oscillator_phase_wrap _ _ _ 0 3 h0 h2 hp0 hp2).2.1,
    (oscillator_phase_wrap _ _ _ 0 3 h0 h2 hp0 hp2).2.2⟩

/-! ## C4 — delay impulse response -/

/-- The cumulative effect of the per-sample writes of `processDelay` on the
circular delay line: each step writes one value at the write index and
advances the index modulo the line length. -/
def applyWrites (dl : List ℚ) (idx : ℕ) : List ℚ → List ℚ
  | [] => dl
  | v :: vs => applyWrites (dl.set idx v) ((idx + 1) % dl.length) vs

/-- The linear write history of the delay line on input `xs` with delay `D`
samples and feedback `f`: `w(n) = xs[n] + f·w(n−D)` (zero before time 0). -/
def whist (f : ℚ) (D : ℕ) (xs : List ℚ) : ℕ → ℚ
  | n => xs.getD n 0 + f * (if h : 1 ≤ D ∧ D ≤ n then whist f D xs (n - D) else 0)
termination_by n => n
decreasing_by omega

theorem getD_replicate_zero (L ix : ℕ) : (List.replicate L (0:ℚ)).getD ix 0 = 0 := by
  rw [List.getD_eq_getElem?_getD, List.getElem?_replicate]
  split <;> rfl

theorem applyWrites_length (ws : List ℚ) : ∀ (dl : List ℚ) (idx : ℕ),
    (applyWrites dl idx ws).length = dl.length := by
  induction ws with
  | nil => intro dl idx; rfl
  | cons v vs ih =>
      intro dl idx
      rw [show applyWrites dl idx (v :: vs) =
        applyWrites (dl.set idx v) ((idx + 1) % dl.length) vs from rfl, ih,
        List.length_set]

theorem applyWrites_concat (ws : List ℚ) : ∀ (dl : List ℚ) (idx : ℕ) (v : ℚ),
    idx < dl.length →
    applyWrites dl idx (ws ++ [v]) =
      (applyWrites dl idx ws).set ((idx + ws.length) % dl.length) v := by
  induction ws with
  | nil =>
      intro dl idx v hidx
      show dl.set idx v = dl.set ((idx + 0) % dl.length) v
      rw [Nat.add_zero, Nat.mod_eq_of_lt hidx]
  | cons w ws ih =>
      intro dl idx v hidx
      have hL : 0 < dl.length := lt_of_le_of_lt (Nat.zero_le idx) hidx
      show applyWrites (dl.set idx w) ((idx + 1) % dl.length) (ws ++ [v]) = _
      rw [ih (dl.set idx w) _ v
        (by rw [List.length_set]; exact Nat.mod_lt _ hL)]
      have harith : ((idx + 1) % dl.length + ws.length) % (dl.set idx w).length =
          (idx + (w :: ws).length) % dl.length := by
        rw [List.length_set, Nat.mod_add_mod, List.length_cons]
        congr 1
        omega
      rw [harith]
      rfl

/-- Reducing the per-step read index, which the loop computes from
`idx = n % L`, to the absolute-time form. -/
theorem read_index_eq (n j L : ℕ) :
    ((((n % L : ℕ) : ℤ) - j + L) % L) = (((n : ℤ) - j + L) % L) := by
  have hn : ((n % L : ℕ) : ℤ) + (L : ℤ) * ((n / L : ℕ) : ℤ) = (n : ℤ) := by
    exact_mod_cast congrArg (Nat.cast : ℕ → ℤ) (Nat.mod_add_div n L)
  have harg : (((n % L : ℕ) : ℤ) - j + L) + (L : ℤ) * ((n / L : ℕ) : ℤ) =
      ((n : ℤ) - j + L) := by
    rw [← hn]; ring
  rw [← harg, Int.add_mul_emod_self_left]

/-- Reading the slot `(n − j) mod L` of the delay line after `n` circular
writes starting from a zero line and write index 0 recovers the `(n−j)`-th
written value (or the initial zero when fewer than `j` writes happened). -/
theorem applyWrites_read (L : ℕ) (ws : List ℚ) :
    ∀ j : ℕ, 1 ≤ j → j ≤ L →
    (applyWrites (List.replicate L 0) 0 ws).getD
        ((((ws.length : ℤ) - j + L) % L)).toNat 0 =
      if j ≤ ws.length then ws.getD (ws.length - j) 0 else 0 := by
  induction ws using List.reverseRecOn with
  | nil =>
      intro j hj1 hjL
      rw [if_neg (by simp only [List.length_nil]; omega)]
      exact getD_replicate_zero L _
  | append_singleton ws v ih =>
      intro j hj1 hjL
      have hL : 0 < L := lt_of_lt_of_le hj1 hjL
      rw [applyWrites_concat ws (List.replicate L 0) 0 v
        (by rw [List.length_replicate]; exact hL), List.length_replicate,
        Nat.zero_add]
      rcases eq_or_lt_of_le hj1 with hj | hj
      · subst hj
        have hix : ((((ws ++ [v]).length : ℤ) - (1:ℕ) + L) % L).toNat = ws.length % L := by
          have h1 : (((ws ++ [v]).length : ℤ) - (1:ℕ) + L) = ((ws.length : ℤ) + L) := by
            push_cast [List.length_append, List.length_singleton]
            ring
          rw [h1, show ((ws.length : ℤ) + L) % L = (ws.length : ℤ) % L by
            simp [Int.add_emod], ← Int.natCast_mod, Int.toNat_natCast]
        rw [hix, List.getD_eq_getElem?_getD,
          List.getElem?_set_self (by
            rw [applyWrites_length, List.length_replicate]
            exact Nat.mod_lt _ hL)]
        rw [if_pos (by simp only [List.length_append, List.length_singleton]; omega)]
        have hidx3 : (ws ++ [v]).length - 1 = ws.length := by
          simp only [List.length_append, List.length_singleton]
          omega
        rw [hidx3, List.getD_eq_getElem?_getD, List.getElem?_concat_length]
      · have hne : ((((ws ++ [v]).length : ℤ) - j + L) % L).toNat ≠ ws.length % L := by
          intro heq
          have hnn : (0:ℤ) ≤ ((((ws ++ [v]).length : ℤ) - j + L) % L) :=
            Int.emod_nonneg _ (by exact_mod_cast hL.ne')
          have hcast : ((((ws ++ [v]).length : ℤ) - j + L) % L) =
              ((ws.length % L : ℕ) : ℤ) := by
            rw [← heq]
            exact (Int.toNat_of_nonneg hnn).symm
          have hmod : ((((ws ++ [v]).length : ℤ) - j + L)) % L = ((ws.length : ℤ)) % L := by
            rw [hcast, Int.natCast_mod]
          have hdvd := Int.ModEq.dvd hmod
          have h2 : ((ws.length : ℤ)) - ((((ws ++ [v]).length : ℤ)) - j + L) =
              ((j : ℤ) - 1) - L := by
            push_cast [List.length_append, List.length_singleton]
            ring
          rw [h2] at hdvd
          have hdvd2 : (L:ℤ) ∣ ((j : ℤ) - 1) := by
            have h3 : ((j:ℤ) - 1) = (((j:ℤ) - 1) - L) + L := by ring
            rw [h3]
            exact dvd_add hdvd dvd_rfl
          have hpos : (0:ℤ) < (j:ℤ) - 1 := by
            have : (1:ℤ) < (j:ℤ) := by exact_mod_cast hj
            omega
          have hge := Int.le_of_dvd hpos hdvd2
          have : (j:ℤ) ≤ (L:ℤ) := by exact_mod_cast hjL
          omega
        rw [List.getD_eq_getElem?_getD, List.getElem?_set_ne (Ne.symm hne),
          ← List.getD_eq_getElem?_getD]
        have hidxeq : (((((ws ++ [v]).length) : ℤ) - j + L) % L).toNat =
            ((((ws.length : ℤ) - (j - 1 : ℕ) + L) % L)).toNat := by
          congr 3
          push_cast [List.length_append, List.length_singleton,
            Nat.cast_sub (by omega : 1 ≤ j)]
          ring
        rw [hidxeq, ih (j - 1) (by omega) (by omega)]
        rcases le_or_lt j (ws.length + 1) with hle | hgt
        · rw [if_pos (by omega),
            if_pos (by simp only [List.length_append, List.length_singleton]; omega)]
          have hidx2 : (ws ++ [v]).length - j = ws.length - (j - 1) := by
            simp only [List.length_append, List.length_singleton]
            omega
          rw [hidx2, List.getD_eq_getElem?_getD (ws ++ [v]),
            List.getElem?_append, if_pos (by omega : ws.length - (j - 1) < ws.length),
            ← List.getD_eq_getElem?_getD]
        · rw [if_neg (by omega),
            if_neg (by simp only [List.length_append, List.length_singleton]; omega)]

/-- Simulation of the circular `processDelay` loop by the linear write
history: starting from a zero delay line, after `n` of the input samples have
been consumed the delay line holds the last `L` history values, the write
index is `n mod L`, and (at `mix = 1`) the emitted sample at absolute time
`k` is the history value `w(k−D)` (zero before time `D`). -/
theorem delayLoop_sim (L D : ℕ) (f : ℚ) (xs : List ℚ)
    (hL : 0 < L) (hD1 : 1 ≤ D) (hDL : D + 1 ≤ L) :
    ∀ (ys : List ℚ) (n : ℕ), xs.drop n = ys →
    Effect.delayLoop (D : ℤ) f 1 ys
        (applyWrites (List.replicate L 0) 0 ((List.range n).map (whist f D xs))) (n % L) =
      (applyWrites (List.replicate L 0) 0
          ((List.range (n + ys.length)).map (whist f D xs)),
        (n + ys.length) % L,
        (List.range' n ys.length).map
          (fun k => if D ≤ k then whist f D xs (k - D) else 0)) := by
  intro ys
  induction ys with
  | nil =>
      intro n hdrop
      simp [Effect.delayLoop]
  | cons y ys ih =>
      intro n hdrop
      have hlen : (applyWrites (List.replicate L 0) 0
          ((List.range n).map (whist f D xs))).length = L := by
        rw [applyWrites_length, List.length_replicate]
      have hgetn : xs.getD n 0 = y := by
        have h0 : xs[n + 0]? = some y := by
          rw [← List.getElem?_drop, hdrop]
          simp
        rw [Nat.add_zero] at h0
        rw [List.getD_eq_getElem?_getD, h0]
        rfl
      have hdrop1 : xs.drop (n + 1) = ys := by
        rw [← List.drop_drop 1 n xs, hdrop]
        rfl
      have hread : (applyWrites (List.replicate L 0) 0
          ((List.range n).map (whist f D xs))).getD
            ((((n % L : ℕ) : ℤ) - (D : ℤ) + (L : ℤ)) % (L : ℤ)).toNat 0 =
          if D ≤ n then whist f D xs (n - D) else 0 := by
        rw [read_index_eq n D L]
        have hr := applyWrites_read L ((List.range n).map (whist f D xs)) D hD1 (by omega)
        rw [List.length_map, List.length_range] at hr
        rw [hr]
        by_cases hDn : D ≤ n
        · rw [if_pos hDn, if_pos hDn, List.getD_eq_getElem?_getD, List.getElem?_map,
            List.getElem?_range (by omega : n - D < n)]
          rfl
        · rw [if_neg hDn, if_neg hDn]
      have hwn : whist f D xs n = y + f * (if D ≤ n then whist f D xs (n - D) else 0) := by
        rw [whist, hgetn]
        congr 1
        by_cases hDn : D ≤ n
        · rw [dif_pos ⟨hD1, hDn⟩, if_pos hDn]
        · rw [dif_neg (by omega), if_neg hDn]
      have hwrite : (applyWrites (List.replicate L 0) 0
          ((List.range n).map (whist f D xs))).set (n % L)
            (y + (if D ≤ n then whist f D xs (n - D) else 0) * f) =
          applyWrites (List.replicate L 0) 0 ((List.range (n + 1)).map (whist f D xs)) := by
        rw [List.range_succ, List.map_append]
        simp only [List.map_cons, List.map_nil]
        rw [applyWrites_concat _ _ _ _ (by rw [List.length_replicate]; exact hL),
          List.length_replicate, List.length_map, List.length_range, Nat.zero_add]
        congr 1
        rw [hwn]
        ring
      simp only [Effect.delayLoop, List.length_cons]
      rw [hlen, hread, hwrite, Nat.mod_add_mod, ih (n + 1) hdrop1]
      rw [show n + 1 + ys.length = n + (ys.length + 1) from by omega]
      rw [List.range'_succ]
      simp [sub_self, mul_zero, zero_add, mul_one]

/-- The write history of a unit impulse: `w(k·D) = f^k` (all other times are
zero, and in particular the input is silent after time 0). -/
theorem whist_impulse (f : ℚ) (D m : ℕ) (hD1 : 1 ≤ D) :
    ∀ k : ℕ, whist f D (1 :: List.replicate m 0) (k * D) = f ^ k := by
  intro k
  induction k with
  | zero =>
      rw [Nat.zero_mul, whist, dif_neg (by omega)]
      simp
  | succ k ih =>
      rw [whist]
      have hpos : 0 < (k + 1) * D := Nat.mul_pos (Nat.succ_pos k) hD1
      have hget : (1 :: List.replicate m (0:ℚ)).getD ((k + 1) * D) 0 = 0 := by
        obtain ⟨j, hj⟩ : ∃ j, (k + 1) * D = j + 1 := ⟨(k + 1) * D - 1, by omega⟩
        rw [hj, List.getD_cons_succ]
        exact getD_replicate_zero m j
      have hDle : D ≤ (k + 1) * D := Nat.le_mul_of_pos_left D (Nat.succ_pos k)
      rw [hget, dif_pos ⟨hD1, hDle⟩]
      have harg : (k + 1) * D - D = k * D := by
        rw [Nat.succ_mul]
        omega
      rw [harg, ih]
      ring

/-- C4 (amended): for the Delay effect with `Mix = 1`, feedback `f`, a zeroed
delay line of length `L`, write index 0 and clamped delay `D ∈ [1, L−1]`
samples, processing a unit impulse followed by silence yields, at lag `D·k`
for every successive `k ≥ 1` inside the buffer, an echo of amplitude
`f^(k−1)`: the write is `input + delayed·feedback`, so the first echo replays
the impulse at full amplitude and each further circulation multiplies by `f`. -/
theorem delay_impulse_echoes (e : Effect) (fns : RealFns) (pm : ParameterManager)
    (L D m k : ℕ)
    (hty : e.type = EffectType.delay) (hmix : e.mix = 1)
    (hdl : e.delayLine = List.replicate L 0) (hidx : e.delayIndex = 0)
    (hD : e.delaySamplesClamped = (D : ℤ)) (hD1 : 1 ≤ D) (hDL : D + 1 ≤ L)
    (hk : 1 ≤ k) (hkm : k * D ≤ m) :
    ((e.Process fns pm (1 :: List.replicate m 0)).2).getD (k * D) 0 =
      (e.params "feedback") ^ (k - 1) := by
  have hL : 0 < L := by omega
  have hproc : e.Process fns pm (1 :: List.replicate m 0) =
      e.processDelay (1 :: List.replicate m 0) := by
    unfold Effect.Process
    rw [hty]
  rw [hproc]
  unfold Effect.processDelay
  rw [hD, hmix, hdl, hidx]
  have hsim := delayLoop_sim L D (e.params "feedback") (1 :: List.replicate m 0)
    hL hD1 hDL (1 :: List.replicate m 0) 0 rfl
  rw [show applyWrites (List.replicate L 0) 0 ((List.range 0).map
      (whist (e.params "feedback") D (1 :: List.replicate m 0))) =
      List.replicate L 0 from rfl, Nat.zero_mod] at hsim
  rw [hsim]
  simp only [List.length_cons, List.length_replicate, Nat.zero_add]
  rw [List.getD_eq_getElem?_getD, List.getElem?_map,
    List.getElem?_range' 0 1 (show k * D < m + 1 by omega)]
  simp only [Nat.zero_add, Nat.one_mul, Option.map_some', Option.getD_some]
  rw [if_pos (Nat.le_mul_of_pos_left D (by omega : 0 < k))]
  rw [show k * D - D = (k - 1) * D from by
    rw [Nat.sub_one_mul]]
  exact whist_impulse (e.params "feedback") D m hD1 (k - 1)

/-- The C4 concrete instance: delay line of length 4, `time = 1/22050`
(2 samples at 44100 Hz), feedback 1/2, mix 1, freshly zeroed state. -/
def cexDelay : Effect :=
  { type := .delay, mix := 1,
    params := fun k => if k = "time" then 1/22050 else if k = "feedback" then 1/2 else 0,
    delayLine := [0, 0, 0, 0], delayIndex := 0, lfoPhasePi := 0,
    sampleHold := 0, holdCount := 0 }

/-- C4 counterexample: with delay 2 samples, feedback 1/2 and mix 1, the
impulse's first echo — at lag `delaySamples·1 = 2` — has amplitude `1` (the
full impulse), not `feedback^1 = 1/2` as the claim predicts: the `k`-th echo
carries `feedback^(k−1)`. -/
theorem delay_impulse_counterexample :
    cexDelay.delaySamplesClamped = 2 ∧
    ((cexDelay.Process ⟨fun _ => 0, fun _ => 0, fun _ => 0, fun _ => 0⟩
        NewParameterManager [1, 0, 0]).2).getD 2 0 = 1 ∧
    ((1 : ℚ) ≠ (1/2) ^ 1) := by
  refine ⟨?_, ?_, by norm_num⟩
  · norm_num [Effect.delaySamplesClamped, cexDelay, ratTrunc, SampleRate]
  · norm_num [Effect.Process, Effect.processDelay, Effect.delayLoop,
      Effect.delaySamplesClamped, cexDelay, ratTrunc, SampleRate,
      List.getD_eq_getElem?_getD, List.getElem_cons_succ, List.getElem_cons_zero,
      (show ("feedback" : String) ≠ "time" by decide),
      (show ("time" : String) ≠ "feedback" by decide),
      (show ((2 : ℤ).toNat = 2) by rfl)]

theorem delay_impulse_echoes_witness :
    (cexDelay.type = EffectType.delay ∧ cexDelay.mix = 1 ∧
      cexDelay.delayLine = List.replicate 4 0 ∧ cexDelay.delayIndex = 0 ∧
      cexDelay.delaySamplesClamped = (2 : ℤ) ∧ 2 * 2 ≤ 4) ∧
    ((cexDelay.Process ⟨fun _ => 0, fun _ => 0, fun _ => 0, fun _ => 0⟩
        NewParameterManager (1 :: List.replicate 4 0)).2).getD (2 * 2) 0 =
      cexDelay.params "feedback" ^ (2 - 1) := by
  have hD : cexDelay.delaySamplesClamped = (2 : ℤ) := by
    norm_num [Effect.delaySamplesClamped, cexDelay, ratTrunc, SampleRate]
  refine ⟨⟨rfl, rfl, by norm_num [cexDelay, List.replicate], rfl, hD, by norm_num⟩, ?_⟩
  exact delay_impulse_echoes cexDelay ⟨fun _ => 0, fun _ => 0, fun _ => 0, fun _ => 0⟩
    NewParameterManager 4 2 4 2 rfl rfl (by norm_num [cexDelay, List.replicate]) rfl
    hD (by norm_num) (by norm_num) (by norm_num) (by norm_num)

/-! ## C5 — chorus write ordering and pass-through threshold -/

/-- The integer part of the modulated delay the chorus will compute for its
next sample, from the effect's current LFO phase and parameters. -/
def Effect.chorusDsiFirst (fns : RealFns) (e : Effect) : ℤ :=
  Effect.chorusDelayInt fns (e.params "depth") (e.params "delay") e.lfoPhasePi

/-- The interpolated wet sample the chorus reads for its next input, computed
from the delay line *as it stands before the current input is written* (the
source reads both taps and only then writes). -/
def Effect.chorusWet (fns : RealFns) (e : Effect) : ℚ :=
  let L := e.delayLine.length
  let lfo := fns.sinPi e.lfoPhasePi * (e.params "depth")
  let delayTime := e.params "delay" + e.params "delay" * lfo
  let delaySamples := delayTime * (SampleRate : ℚ)
  let dsi := ratTrunc delaySamples
  let fraction := delaySamples - (dsi : ℚ)
  let r1 := ((((e.delayIndex : ℤ) - dsi + (L : ℤ)) % (L : ℤ))).toNat
  let r2 := ((((r1 : ℤ) - 1 + (L : ℤ)) % (L : ℤ))).toNat
  e.delayLine.getD r1 0 * (1 - fraction) + e.delayLine.getD r2 0 * fraction

/-- The chorus loop as the C5 claim words it (a second definition following
the claim, for comparison with the source's `chorusLoop`): the current input
is written to the circular buffer *before* the wet value is computed, and the
sample passes through unmodified exactly when the integer delay reaches or
exceeds the buffer *length*. -/
def chorusLoopClaimOrder (fns : RealFns) (rate depth baseDelay mix : ℚ) :
    List ℚ → List ℚ → ℕ → ℚ → List ℚ × ℕ × ℚ × List ℚ
  | [], dl, idx, ph => (dl, idx, ph, [])
  | x :: xs, dl, idx, ph =>
      let L := dl.length
      let lfo := fns.sinPi ph * depth
      let lfoIncPi := 2 * rate / (SampleRate : ℚ)
      let ph1 := ph + lfoIncPi
      let ph' := if ph1 ≥ 2 then ph1 - 2 else ph1
      let delayTime := baseDelay + baseDelay * lfo
      let delaySamples := delayTime * (SampleRate : ℚ)
      let dsi := ratTrunc delaySamples
      let fraction := delaySamples - (dsi : ℚ)
      if dsi < (L : ℤ) then
        let dl' := dl.set idx x
        let r1 := ((((idx : ℤ) - dsi + (L : ℤ)) % (L : ℤ))).toNat
        let r2 := ((((r1 : ℤ) - 1 + (L : ℤ)) % (L : ℤ))).toNat
        let s1 := dl'.getD r1 0
        let s2 := dl'.getD r2 0
        let delayed := s1 * (1 - fraction) + s2 * fraction
        let out := x * (1 - mix) + delayed * mix
        let r := chorusLoopClaimOrder fns rate depth baseDelay mix xs dl' ((idx + 1) % L) ph'
        (r.1, r.2.1, r.2.2.1, out :: r.2.2.2)
      else
        let r := chorusLoopClaimOrder fns rate depth baseDelay mix xs dl idx ph'
        (r.1, r.2.1, r.2.2.1, x :: r.2.2.2)

/-- Effect-level wrapper of `chorusLoopClaimOrder` (claim-side definition). -/
def Effect.processChorusClaimOrder (e : Effect) (fns : RealFns) (buffer : List ℚ) :
    Effect × List ℚ :=
  let r := chorusLoopClaimOrder fns (e.params "rate") (e.params "depth")
    (e.params "delay") e.mix buffer e.delayLine e.delayIndex e.lfoPhasePi
  ({ e with delayLine := r.1, delayIndex := r.2.1, lfoPhasePi := r.2.2.1 }, r.2.2.2)

/-- The C5 threshold instance: a 4-slot line and base delay `3/44100`, giving
integer delay exactly `length − 1 = 3`. -/
def cexChorusA : Effect :=
  { type := .chorus, mix := 1,
    params := fun k => if k = "delay" then 3/44100 else 0,
    delayLine := [0, 0, 0, 0], delayIndex := 0, lfoPhasePi := 0,
    sampleHold := 0, holdCount := 0 }

/-- The C5 write-order instance: integer delay 0, and the slot about to be
written currently holds 9, so read-before-write and write-before-read give
different wet values. -/
def cexChorusB : Effect :=
  { type := .chorus, mix := 1, params := fun _ => 0,
    delayLine := [9, 0, 0, 0], delayIndex := 0, lfoPhasePi := 0,
    sampleHold := 0, holdCount := 0 }

/-- C5 counterexample, refuting both halves of the claim on the source's
`processChorus`.  (1) Threshold: with integer delay `3 = length − 1 < length`
the claim says the sample is processed, but the source passes it through
unmodified (buffer, delay line and write index untouched), because the source
skips whenever the integer delay reaches `length − 1`, not `length`.
(2) Ordering: with integer delay 0 the source's wet value is the *old* slot
content 9 (read happens before the write), while the claim's
write-before-read reading would produce 5. -/
theorem chorus_counterexample :
    Effect.chorusDsiFirst ⟨fun _ => 0, fun _ => 0, fun _ => 0, fun _ => 0⟩ cexChorusA = 3 ∧
    (3 : ℤ) < (cexChorusA.delayLine.length : ℤ) ∧
    (cexChorusA.processChorus ⟨fun _ => 0, fun _ => 0, fun _ => 0, fun _ => 0⟩ [5]).2 =
      [5] ∧
    (cexChorusA.processChorus ⟨fun _ => 0, fun _ => 0, fun _ => 0, fun _ => 0⟩
        [5]).1.delayLine = cexChorusA.delayLine ∧
    (cexChorusA.processChorus ⟨fun _ => 0, fun _ => 0, fun _ => 0, fun _ => 0⟩
        [5]).1.delayIndex = cexChorusA.delayIndex ∧
    (cexChorusA.processChorusClaimOrder ⟨fun _ => 0, fun _ => 0, fun _ => 0, fun _ => 0⟩
        [5]).2 = [0] ∧
    (cexChorusB.processChorus ⟨fun _ => 0, fun _ => 0, fun _ => 0, fun _ => 0⟩ [5]).2 =
      [9] ∧
    (cexChorusB.processChorusClaimOrder ⟨fun _ => 0, fun _ => 0, fun _ => 0, fun _ => 0⟩
        [5]).2 = [5] ∧
    ((9 : ℚ) ≠ 5) := by
  refine ⟨?_, by norm_num [cexChorusA], ?_, ?_, ?_, ?_, ?_, ?_, by norm_num⟩ <;>
    norm_num [Effect.chorusDsiFirst, Effect.chorusDelayInt, Effect.processChorus,
      Effect.processChorusClaimOrder, Effect.chorusLoop, chorusLoopClaimOrder,
      cexChorusA, cexChorusB, ratTrunc, SampleRate,
      List.getD_eq_getElem?_getD, List.getElem_cons_succ, List.getElem_cons_zero,
      (show ("rate" : String) ≠ "delay" by decide),
      (show ("depth" : String) ≠ "delay" by decide),
      (show ((0 : ℤ).toNat = 0) by rfl), (show ((1 : ℤ).toNat = 1) by rfl),
      (show ((3 : ℤ).toNat = 3) by rfl)]

/-- C5 (amended): per chorus sample, the sample is passed through unmodified
(buffer value, delay line and write index all untouched) exactly when the
integer part of the modulated delay reaches or exceeds the buffer length
*minus one*; when it is below that bound, the wet value is interpolated from
the delay line *before* the current input is written (read-before-write), the
input is then written at the write index, and the index advances. -/
theorem chorus_step_characterization (fns : RealFns) (e : Effect) (x : ℚ)
    (hL : 2 ≤ e.delayLine.length) (hidx : e.delayIndex < e.delayLine.length) :
    (((e.processChorus fns [x]).1.delayLine = e.delayLine ∧
      (e.processChorus fns [x]).1.delayIndex = e.delayIndex ∧
      (e.processChorus fns [x]).2 = [x]) ↔
      (e.delayLine.length : ℤ) - 1 ≤ Effect.chorusDsiFirst fns e) ∧
    (Effect.chorusDsiFirst fns e < (e.delayLine.length : ℤ) - 1 →
      (e.processChorus fns [x]).2 =
        [x * (1 - e.mix) + Effect.chorusWet fns e * e.mix] ∧
      (e.processChorus fns [x]).1.delayLine = e.delayLine.set e.delayIndex x ∧
      (e.processChorus fns [x]).1.delayIndex =
        (e.delayIndex + 1) % e.delayLine.length) := by
  by_cases hc : Effect.chorusDsiFirst fns e < (e.delayLine.length : ℤ) - 1
  · have hstep : (e.processChorus fns [x]).2 =
          [x * (1 - e.mix) + Effect.chorusWet fns e * e.mix] ∧
        (e.processChorus fns [x]).1.delayLine = e.delayLine.set e.delayIndex x ∧
        (e.processChorus fns [x]).1.delayIndex =
          (e.delayIndex + 1) % e.delayLine.length := by
      simp only [Effect.chorusDsiFirst, Effect.chorusDelayInt] at hc
      simp only [Effect.processChorus, Effect.chorusLoop, Effect.chorusWet]
      rw [if_pos hc]
      exact ⟨rfl, rfl, rfl⟩
    have hne : (e.delayIndex + 1) % e.delayLine.length ≠ e.delayIndex := by
      rcases Nat.lt_or_ge (e.delayIndex + 1) e.delayLine.length with h | h
      · rw [Nat.mod_eq_of_lt h]
        omega
      · have h1 : e.delayIndex + 1 = e.delayLine.length := by omega
        rw [h1, Nat.mod_self]
        omega
    refine ⟨⟨fun hpass => ?_, fun hge => absurd hc (not_lt.mpr hge)⟩, fun _ => hstep⟩
    exfalso
    apply hne
    rw [← hstep.2.2]
    exact hpass.2.1
  · have hstep : (e.processChorus fns [x]).1.delayLine = e.delayLine ∧
        (e.processChorus fns [x]).1.delayIndex = e.delayIndex ∧
        (e.processChorus fns [x]).2 = [x] := by
      simp only [Effect.chorusDsiFirst, Effect.chorusDelayInt] at hc
      simp only [Effect.processChorus, Effect.chorusLoop]
      rw [if_neg hc]
      exact ⟨rfl, rfl, rfl⟩
    exact ⟨⟨fun _ => le_of_not_lt hc, fun _ => hstep⟩, fun hlt => absurd hlt hc⟩

theorem chorus_step_characterization_witness :
    (2 ≤ cexChorusB.delayLine.length ∧
      cexChorusB.delayIndex < cexChorusB.delayLine.length) ∧
    (cexChorusB.processChorus ⟨fun _ => 0, fun _ => 0, fun _ => 0, fun _ => 0⟩ [5]).2 =
      [5 * (1 - cexChorusB.mix) +
        Effect.chorusWet ⟨fun _ => 0, fun _ => 0, fun _ => 0, fun _ => 0⟩ cexChorusB *
          cexChorusB.mix] := by
  refine ⟨⟨by norm_num [cexChorusB], by norm_num [cexChorusB]⟩, ?_⟩
  exact ((chorus_step_characterization ⟨fun _ => 0, fun _ => 0, fun _ => 0, fun _ => 0⟩
    cexChorusB 5 (by norm_num [cexChorusB]) (by norm_num [cexChorusB])).2
    (by norm_num [Effect.chorusDsiFirst, Effect.chorusDelayInt, cexChorusB,
      ratTrunc, SampleRate])).1

end HephaestusForge
